import Mathlib

/-!
# vrstore: promotions ingestion pipeline

Shallow embedding of `main.go` (package `main` of `avag-sargsyan/vrstore`):

* `insertPromotions` (lines 160-218): the chunk loader,
* `processCSVFile` (lines 90-151): the refresh orchestrator,
* `getPromotionByID` (lines 221-253): the lookup handler.

What the program does not define itself is an input of the model:

* `strconv.ParseFloat` and `time.Parse` are parameters `parseFloat` and
  `parseTime`; `none` stands for a non-nil `err`.
* The answers of the PostgreSQL store (does `Begin`, `Prepare`, `Exec`,
  `Commit`, `Close`, `DELETE` succeed; what does the lookup query return)
  are given by `StoreOutcomes`, `IterEnv` and `ScanResult` values.
* Goroutine scheduling is a list of scheduler choices.
-/

namespace VRStore

/-! ## Data model -/

/-- Number of records per chunk (`chunkSize`, main.go line 21). -/
def chunkSize : Nat := 1000

/-- A promotion record (`type Promotion struct`, main.go lines 25-29).  The
price type `P` and the time type `T` are those of the values returned by the
two library parsers. -/
structure Promotion (P T : Type) where
  ID : String
  Price : P
  ExpirationDate : T
deriving DecidableEq, Repr

/-- Ways in which a goroutine stops without returning: a run-time panic
(nil pointer dereference, index out of range).  In Go an unrecovered panic in
any goroutine ends the whole process. -/
inductive Fault where
  | nilDereference
  | indexOutOfRange
deriving DecidableEq, Repr

/-- How one call of `insertPromotions` ends. -/
inductive Outcome where
  /-- `return nil` at line 217 was reached. -/
  | returned
  /-- A run-time panic. -/
  | panicked (f : Fault)
  /-- `log.Fatal` at line 212 (it calls `os.Exit(1)`). -/
  | exited
deriving DecidableEq, Repr

/-- The `log.Println` / `log.Fatal` calls of `insertPromotions`, in the order
of the source. -/
inductive LogLine where
  /-- Line 163: "Error starting a transaction". -/
  | beginError
  /-- Line 168. -/
  | prepareError
  /-- Line 179: "Error parsing price:". -/
  | priceError
  /-- Line 186: "Error parsing expiration date:". -/
  | expirationError
  /-- Line 192. -/
  | execError
  /-- Line 200: "Error inserting promotions into database:". -/
  | flushError
  /-- Line 206: "Error committing the transaction:". -/
  | commitError
  /-- Line 212: `log.Fatal(err)` after `stmt.Close()`. -/
  | closeFatal
deriving DecidableEq, Repr

/-- The answers of the store to the calls made by one invocation of
`insertPromotions`: `true` is a nil `err`.  `execOk k` is the answer to the
row-level `stmt.Exec(id, price, expiration)` call that comes after `k` earlier
such calls of the same invocation. -/
structure StoreOutcomes where
  beginOk : Bool
  prepareOk : Bool
  execOk : Nat → Bool
  flushOk : Bool
  commitOk : Bool
  closeOk : Bool

/-- No store operation fails. -/
def StoreOutcomes.allOk : StoreOutcomes :=
  { beginOk := true, prepareOk := true, execOk := fun _ => true,
    flushOk := true, commitOk := true, closeOk := true }

/-! ## The chunk loader: `insertPromotions` -/

/-- State threaded through the `for _, record := range records` loop. -/
structure LoopState (P T : Type) where
  /-- Log lines printed so far. -/
  logs : List LogLine
  /-- Arguments of the row-level `stmt.Exec` calls made so far (line 190). -/
  written : List (Promotion P T)
  /-- Those of them whose `stmt.Exec` call returned a nil error. -/
  buffered : List (Promotion P T)
  /-- A panic raised inside the loop, if any. -/
  fault : Option Fault

/-- The loop of lines 171-195.  `stmtOk = false` means that `stmt` is the nil
pointer left by a failed `txn.Prepare`: calling `stmt.Exec` on it dereferences
nil.  The three index expressions of lines 172-174 are evaluated first; an
index beyond the length of the record panics. -/
def insertLoop {P T : Type} (parseFloat : String → Option P) (parseTime : String → Option T)
    (stmtOk : Bool) (execOk : Nat → Bool) :
    List (List String) → LoopState P T → LoopState P T
  | [], s => s
  | record :: rest, s =>
    match record[0]?, record[1]?, record[2]? with
    | some id, some price, some expirationDate =>
      match parseFloat price with
      | none =>
        insertLoop parseFloat parseTime stmtOk execOk rest
          { s with logs := s.logs ++ [LogLine.priceError] }
      | some priceFloat =>
        match parseTime expirationDate with
        | none =>
          insertLoop parseFloat parseTime stmtOk execOk rest
            { s with logs := s.logs ++ [LogLine.expirationError] }
        | some expirationDateTime =>
          if stmtOk then
            if execOk s.written.length then
              insertLoop parseFloat parseTime stmtOk execOk rest
                { s with
                  written := s.written ++ [⟨id, priceFloat, expirationDateTime⟩]
                  buffered := s.buffered ++ [⟨id, priceFloat, expirationDateTime⟩] }
            else
              insertLoop parseFloat parseTime stmtOk execOk rest
                { s with
                  written := s.written ++ [⟨id, priceFloat, expirationDateTime⟩]
                  logs := s.logs ++ [LogLine.execError] }
          else
            { s with fault := some Fault.nilDereference }
    | _, _, _ => { s with fault := some Fault.indexOutOfRange }

/-- What one invocation of `insertPromotions` did. -/
structure LoaderRun (P T : Type) where
  /-- Log lines printed, in order. -/
  logs : List LogLine
  /-- Arguments of the row-level `stmt.Exec` calls, in order: the write set
  handed to the bulk operation. -/
  written : List (Promotion P T)
  /-- Rows that the invocation made visible in the table. -/
  stored : List (Promotion P T)
  /-- Number of `wg.Done()` calls. -/
  done : Nat
  /-- How the invocation ended. -/
  outcome : Outcome

/-- The function `insertPromotions` of lines 160-218.

A failed `db.Begin()` is logged and leaves `txn` nil, so `txn.Prepare` at line
166 dereferences nil.  A failed `txn.Prepare` is logged and leaves `stmt` nil,
so the first `stmt.Exec` (row-level at line 190 or the flush at line 198)
dereferences nil.  The rows of the chunk reach the table as one unit, when both
the flush and the commit succeed. -/
def insertPromotions {P T : Type} (parseFloat : String → Option P)
    (parseTime : String → Option T) (st : StoreOutcomes) (records : List (List String)) :
    LoaderRun P T :=
  if st.beginOk then
    let logs1 := if st.prepareOk then [] else [LogLine.prepareError]
    let s := insertLoop parseFloat parseTime st.prepareOk st.execOk records
      { logs := logs1, written := [], buffered := [], fault := none }
    match s.fault with
    | some f =>
      { logs := s.logs, written := s.written, stored := [], done := 0,
        outcome := Outcome.panicked f }
    | none =>
      if st.prepareOk then
        let logs2 := if st.flushOk then s.logs else s.logs ++ [LogLine.flushError]
        let logs3 := if st.commitOk then logs2 else logs2 ++ [LogLine.commitError]
        let stored := if st.flushOk && st.commitOk then s.buffered else []
        if st.closeOk then
          { logs := logs3, written := s.written, stored := stored, done := 1,
            outcome := Outcome.returned }
        else
          { logs := logs3 ++ [LogLine.closeFatal], written := s.written, stored := stored,
            done := 0, outcome := Outcome.exited }
      else
        { logs := s.logs, written := s.written, stored := [], done := 0,
          outcome := Outcome.panicked Fault.nilDereference }
  else
    { logs := [LogLine.beginError], written := [], stored := [], done := 0,
      outcome := Outcome.panicked Fault.nilDereference }

/-! ## Concrete parsers for closed examples

The general theorems hold for every pair of parsers.  Closed examples need
concrete ones.  The two below accept a part of what the Go library accepts:
every string they accept is accepted by the library function (nil `err`), and
the example strings they reject (`"abc"`, `"not-a-date"`) are rejected by the
library function as well. -/

/-- A decimal number `mantissa / 10 ^ scale`. -/
structure Decimal where
  mantissa : Int
  scale : Nat
deriving DecidableEq, Repr

/-- Value of a string of decimal digits. -/
def digitsValue (ds : List Char) : Nat :=
  ds.foldl (fun n c => 10 * n + (c.toNat - 48)) 0

/-- The price is not negative. -/
def Decimal.nonneg (d : Decimal) : Bool := decide (0 ≤ d.mantissa)

/-- `strconv.ParseFloat(s, 64)` on plain decimal literals: an optional sign,
digits, an optional `.` and digits, at least one digit, at most 308 digits
before the point (so that the value is in the range of a float64).  The result
is the decimal the literal denotes, which the library then rounds to the
nearest float64.  Exponents, hexadecimal literals, underscores, infinities and
NaN are left out. -/
def parseDecimal (s : String) : Option Decimal :=
  let cs := s.toList
  let signed : Bool × List Char :=
    match cs with
    | '-' :: r => (true, r)
    | '+' :: r => (false, r)
    | r => (false, r)
  let ip := signed.2.takeWhile Char.isDigit
  let rest := signed.2.dropWhile Char.isDigit
  let frac : Option (List Char) :=
    match rest with
    | [] => some []
    | '.' :: f => some f
    | _ => none
  match frac with
  | none => none
  | some f =>
    if f.all Char.isDigit && decide (0 < ip.length + f.length) && decide (ip.length ≤ 308) then
      some { mantissa := (if signed.1 then -1 else 1) * (digitsValue (ip ++ f) : Int),
             scale := f.length }
    else none

/-- A parsed timestamp. -/
structure Timestamp where
  year : Nat
  month : Nat
  day : Nat
  hour : Nat
  minute : Nat
  second : Nat
  /-- Offset east of UTC, in minutes. -/
  offset : Int
  zone : String
deriving DecidableEq, Repr

/-- Days of a month of the Gregorian calendar. -/
def daysIn (year month : Nat) : Nat :=
  if month = 2 then
    if year % 4 = 0 ∧ (year % 100 ≠ 0 ∨ year % 400 = 0) then 29 else 28
  else if month = 4 ∨ month = 6 ∨ month = 9 ∨ month = 11 then 30
  else 31

/-- `time.Parse("2006-01-02 15:04:05 -0700 MST", s)` on strings of the shape
`YYYY-MM-DD hh:mm:ss ±hhmm ZZZ`: a four-digit year, two-digit fields in their
ranges, a numeric offset and a zone of three upper-case letters.  Other forms
that the library accepts (one-digit hours, fractional seconds, longer zone
names) are left out. -/
def parseTimestamp (s : String) : Option Timestamp :=
  match s.toList with
  | [y1, y2, y3, y4, c1, m1, m2, c2, d1, d2, c3, h1, h2, c4, n1, n2, c5, s1, s2, c6,
      sg, o1, o2, o3, o4, c7, z1, z2, z3] =>
    let year := digitsValue [y1, y2, y3, y4]
    let month := digitsValue [m1, m2]
    let day := digitsValue [d1, d2]
    let hour := digitsValue [h1, h2]
    let minute := digitsValue [n1, n2]
    let second := digitsValue [s1, s2]
    let oh := digitsValue [o1, o2]
    let om := digitsValue [o3, o4]
    if [y1, y2, y3, y4, m1, m2, d1, d2, h1, h2, n1, n2, s1, s2, o1, o2, o3, o4].all Char.isDigit
        && [c1, c2, c3, c4, c5, c6, c7] == ['-', '-', ' ', ':', ':', ' ', ' ']
        && (sg == '+' || sg == '-')
        && [z1, z2, z3].all Char.isUpper
        && decide (1 ≤ month ∧ month ≤ 12 ∧ 1 ≤ day ∧ day ≤ daysIn year month)
        && decide (hour < 24 ∧ minute < 60 ∧ second < 60 ∧ oh < 24 ∧ om < 60) then
      some { year := year, month := month, day := day, hour := hour, minute := minute,
             second := second,
             offset := (if sg == '-' then -1 else 1) * ((oh * 60 + om : Nat) : Int),
             zone := String.mk [z1, z2, z3] }
    else none
  | _ => none

/-! ## The refresh orchestrator: `processCSVFile` -/

/-- The read loop of lines 110-135 over the records that `reader.Read`
yields before it stops.  The second argument is the chunk buffer.  The result
is the list of chunks handed to `go insertPromotions` inside the loop, in
dispatch order, and the buffer left when the reader stops. -/
def readLoop : List (List String) → List (List String) →
    List (List (List String)) × List (List String)
  | [], chunk => ([], chunk)
  | record :: rest, chunk =>
    if (chunk ++ [record]).length = chunkSize then
      ((chunk ++ [record]) :: (readLoop rest []).1, (readLoop rest []).2)
    else readLoop rest (chunk ++ [record])

/-- All chunks dispatched in one pass over a file that is read to `EOF`:
those of the read loop, then the last chunk when it is not empty (lines
138-141). -/
def dispatchedChunks (rows : List (List String)) : List (List (List String)) :=
  if (readLoop rows []).2.length > 0 then (readLoop rows []).1 ++ [(readLoop rows []).2]
  else (readLoop rows []).1

/-- A spawned `go insertPromotions(chunk, &wg)`: its chunk and the answers the
store will give it. -/
structure Loader where
  records : List (List String)
  store : StoreOutcomes

/-- The table, the loader goroutines that were spawned and have not finished,
and the counter of the `sync.WaitGroup`. -/
structure World (P T : Type) where
  table : List (Promotion P T)
  running : List Loader
  wg : Nat

/-- Lines 130-132 and 139-140: `wg.Add(1)`, then `go insertPromotions(chunk, &wg)`. -/
def spawn {P T : Type} (w : World P T) (l : Loader) : World P T :=
  { w with wg := w.wg + 1, running := w.running ++ [l] }

/-- Spawns a loader for each chunk, in order; the `k`-th dispatched chunk meets
the store answers `store k`. -/
def spawnAll {P T : Type} (store : Nat → StoreOutcomes) :
    List (List (List String)) → Nat → World P T → World P T
  | [], _, w => w
  | chunk :: rest, k, w => spawnAll store rest (k + 1) (spawn w ⟨chunk, store k⟩)

/-- The loaders that `spawnAll` adds: one for each chunk, the one of the `i`-th
chunk with the store answers `store (k + i)`. -/
def loadersOf (store : Nat → StoreOutcomes) : List (List (List String)) → Nat → List Loader
  | [], _ => []
  | chunk :: rest, k => ⟨chunk, store k⟩ :: loadersOf store rest (k + 1)

/-- Inserts `x` before position `n` of a list (at the end when `n` is beyond it). -/
def insertAt {α : Type} (x : α) : Nat → List α → List α
  | 0, l => x :: l
  | _ + 1, [] => [x]
  | n + 1, y :: l => y :: insertAt x n l

/-- The order in which the running goroutines finish, decided by the scheduler
choices `sched`: every choice list gives a rearrangement of the goroutines, and
every rearrangement is given by some choice list. -/
def completionOrder {α : Type} : List Nat → List α → List α
  | _, [] => []
  | [], x :: xs => x :: completionOrder [] xs
  | p :: ps, x :: xs => insertAt x p (completionOrder ps xs)

/-- Runs loaders to their end one after the other.  A loader touches the table
only through its commit, so the table after all of them is the table after
their commits in completion order.  `none`: a loader panicked or called
`log.Fatal`, which ends the process. -/
def finishLoaders {P T : Type} (parseFloat : String → Option P)
    (parseTime : String → Option T) :
    List Loader → List (Promotion P T) × Nat → Option (List (Promotion P T) × Nat)
  | [], s => some s
  | l :: rest, s =>
    match (insertPromotions parseFloat parseTime l.store l.records).outcome with
    | Outcome.returned =>
      finishLoaders parseFloat parseTime rest
        (s.1 ++ (insertPromotions parseFloat parseTime l.store l.records).stored,
         s.2 - (insertPromotions parseFloat parseTime l.store l.records).done)
    | _ => none

/-- How a call of `wg.Wait()` ends. -/
inductive WaitResult (P T : Type) where
  /-- The counter reached zero and `Wait` returned. -/
  | resumed (w : World P T)
  /-- All goroutines are finished and the counter is not zero: `Wait` never returns. -/
  | blocked
  /-- A loader ended the process. -/
  | processEnded

/-- Line 144, `wg.Wait()`: returns at once when the counter is zero, otherwise
when the running loaders have brought it to zero. -/
def wgWait {P T : Type} (parseFloat : String → Option P) (parseTime : String → Option T)
    (sched : List Nat) (w : World P T) : WaitResult P T :=
  if w.wg = 0 then WaitResult.resumed w
  else
    match finishLoaders parseFloat parseTime (completionOrder sched w.running) (w.table, w.wg) with
    | none => WaitResult.processEnded
    | some s =>
      if s.2 = 0 then WaitResult.resumed { table := s.1, running := [], wg := 0 }
      else WaitResult.blocked

/-- What the environment gives to one iteration of the outer `for` of
`processCSVFile`. -/
structure IterEnv where
  /-- Does `DELETE FROM promotions` succeed (`cleanUpStorage`, lines 154-157). -/
  deleteOk : Bool
  /-- Does `os.Open` succeed. -/
  openOk : Bool
  /-- The records that `reader.Read` yields before it stops. -/
  rows : List (List String)
  /-- `true`: the reader stops with `EOF`; `false`: with another error. -/
  readOk : Bool
  /-- Store answers met by the loader of the `k`-th dispatched chunk. -/
  store : Nat → StoreOutcomes
  /-- Scheduler choices for the loaders of this iteration. -/
  sched : List Nat

/-- Observable steps of the orchestrator. -/
inductive Event where
  /-- One `cleanUpStorage()` call and whether it succeeded. -/
  | deleteAll (ok : Bool)
  /-- One `os.Open` call and whether it succeeded. -/
  | openFile (ok : Bool)
  /-- One `go insertPromotions(chunk, &wg)`. -/
  | dispatch (chunk : List (List String))
  /-- `wg.Wait()` returned. -/
  | waitReturned
  /-- `time.Sleep(30 * time.Minute)`. -/
  | sleep
  /-- The process ended (`log.Fatal`, or a panic in a loader). -/
  | processEnded
deriving DecidableEq, Repr

/-- State after one iteration of the outer loop. -/
inductive Status (P T : Type) where
  /-- The loop goes on to its next iteration, with this table. -/
  | continued (table : List (Promotion P T))
  /-- The process ended. -/
  | ended
  /-- The orchestrator is blocked in `wg.Wait()` for ever. -/
  | blocked

/-- One iteration of the outer `for` of `processCSVFile` (lines 91-150),
started on the table `table`.  A failed delete leaves the table as it is and
`continue`s; a successful one empties it.  The end of the process brought
about by a loader is observed at the wait. -/
def iteration {P T : Type} (parseFloat : String → Option P) (parseTime : String → Option T)
    (e : IterEnv) (table : List (Promotion P T)) : List Event × Status P T :=
  if e.deleteOk then
    if e.openOk then
      if e.readOk then
        match wgWait parseFloat parseTime e.sched
            (spawnAll e.store (dispatchedChunks e.rows) 0 { table := [], running := [], wg := 0 }) with
        | WaitResult.resumed w =>
          ([Event.deleteAll true, Event.openFile true]
              ++ (dispatchedChunks e.rows).map Event.dispatch
              ++ [Event.waitReturned, Event.sleep],
            Status.continued w.table)
        | WaitResult.blocked =>
          ([Event.deleteAll true, Event.openFile true]
              ++ (dispatchedChunks e.rows).map Event.dispatch,
            Status.blocked)
        | WaitResult.processEnded =>
          ([Event.deleteAll true, Event.openFile true]
              ++ (dispatchedChunks e.rows).map Event.dispatch
              ++ [Event.processEnded],
            Status.ended)
      else
        ([Event.deleteAll true, Event.openFile true]
            ++ (readLoop e.rows []).1.map Event.dispatch
            ++ [Event.processEnded],
          Status.ended)
    else
      ([Event.deleteAll true, Event.openFile false, Event.processEnded], Status.ended)
  else
    ([Event.deleteAll false], Status.continued table)

/-- The steps of `processCSVFile` over the iterations described by `envs`
(the loop itself never ends; every finite run of it is one of these). -/
def processCSVFile {P T : Type} (parseFloat : String → Option P)
    (parseTime : String → Option T) :
    List IterEnv → List (Promotion P T) → List Event
  | [], _ => []
  | e :: rest, table =>
    match (iteration parseFloat parseTime e table).2 with
    | Status.continued table' =>
      (iteration parseFloat parseTime e table).1 ++ processCSVFile parseFloat parseTime rest table'
    | _ => (iteration parseFloat parseTime e table).1

/-! ## The lookup handler: `getPromotionByID` -/

/-- What `db.QueryRow(query, id)` followed by `row.Scan` gives. -/
inductive ScanResult (P T : Type) where
  /-- A row was found and scanned into `promotion`. -/
  | row (promotion : Promotion P T)
  /-- `err == sql.ErrNoRows`. -/
  | errNoRows
  /-- Another non-nil `err`. -/
  | errOther

/-- A value of a JSON object member. -/
inductive JsonValue (P T : Type) where
  | str (s : String)
  | num (p : P)
  | time (t : T)

/-- The members that `json.Marshal` emits for a `Promotion`, with the names of
the struct tags of lines 26-28. -/
def promotionMembers {P T : Type} (p : Promotion P T) : List (String × JsonValue P T) :=
  [("id", JsonValue.str p.ID), ("price", JsonValue.num p.Price),
   ("expiration_date", JsonValue.time p.ExpirationDate)]

/-- An HTTP response: status code, `Content-Type` header, body. -/
structure Response where
  status : Nat
  contentType : String
  body : String
deriving DecidableEq, Repr

/-- Line 223, `r.URL.Path[len("/promotions/"):]`: the handler is registered for
the pattern `/promotions/`, so the path starts with these twelve one-byte
characters and the identifier is what follows them. -/
def requestedID (path : String) : String :=
  String.mk (path.toList.drop "/promotions/".length)

/-- The handler `getPromotionByID` of lines 221-253.  `queryRow` is the answer of the store, `encode` the
encoder of `json.Marshal` (`none`: it returns an error). -/
def getPromotionByID {P T : Type} (queryRow : String → ScanResult P T)
    (encode : List (String × JsonValue P T) → Option String) (path : String) : Response :=
  match queryRow (requestedID path) with
  | ScanResult.errNoRows =>
    { status := 404, contentType := "text/plain; charset=utf-8", body := "404 page not found\n" }
  | ScanResult.errOther =>
    { status := 500, contentType := "text/plain; charset=utf-8", body := "Internal Server Error\n" }
  | ScanResult.row promotion =>
    match encode (promotionMembers promotion) with
    | none =>
      { status := 500, contentType := "text/plain; charset=utf-8",
        body := "Internal Server Error\n" }
    | some jsonData => { status := 200, contentType := "application/json", body := jsonData }

/-! ## Validity of a row, as the specification words it -/

/-- A row is valid when it has a price field that parses as a number and an
expiration field that parses in the fixed layout. -/
def validRow {P T : Type} (parseFloat : String → Option P) (parseTime : String → Option T)
    (record : List String) : Bool :=
  match record[1]?, record[2]? with
  | some price, some expirationDate =>
    (parseFloat price).isSome && (parseTime expirationDate).isSome
  | _, _ => false

/-- The promotion a record stands for, when it has three fields that parse. -/
def parseRecord {P T : Type} (parseFloat : String → Option P) (parseTime : String → Option T)
    (record : List String) : Option (Promotion P T) :=
  match record[0]?, record[1]?, record[2]? with
  | some id, some price, some expirationDate =>
    match parseFloat price, parseTime expirationDate with
    | some p, some t => some ⟨id, p, t⟩
    | _, _ => none
  | _, _, _ => none

/-- Shape of a run of the refresh loop: a sequence of iterations, each of which
is either a failed delete alone, or a successful delete followed by steps none
of which is a delete. -/
inductive CycleTrace : List Event → Prop where
  | done : CycleTrace []
  | restart (t : List Event) : CycleTrace t → CycleTrace (Event.deleteAll false :: t)
  | cycle (tail t : List Event) : (∀ ev ∈ tail, ∀ ok, ev ≠ Event.deleteAll ok) →
      CycleTrace t → CycleTrace (Event.deleteAll true :: tail ++ t)

/-! ## Rows of the end-to-end scenario -/

/-- A well-formed expiration field. -/
def sampleExpiration : String := "2030-01-02 15:04:05 +0000 UTC"

/-- A valid row. -/
def rowP1 : List String := ["p1", "9.99", sampleExpiration]

/-- A row whose price is not a number. -/
def rowP2 : List String := ["p2", "abc", sampleExpiration]

/-- A row whose expiration is not in the layout; its price is a number. -/
def rowP3 : List String := ["p3", "4.50", "not-a-date"]

/-- A row with a negative price. -/
def rowNegative : List String := ["p4", "-5", sampleExpiration]

/-- One iteration over the three rows of the scenario, in which every
operation succeeds. -/
def scenarioEnv : IterEnv :=
  { deleteOk := true, openOk := true, rows := [rowP1, rowP2, rowP3], readOk := true,
    store := fun _ => StoreOutcomes.allOk, sched := [] }

/-- The rows of `ps` whose `stmt.Exec` call is answered without error, when
`k` such calls came before. -/
def keepAccepted {α : Type} (execOk : Nat → Bool) : Nat → List α → List α
  | _, [] => []
  | k, p :: ps =>
    if execOk k then p :: keepAccepted execOk (k + 1) ps else keepAccepted execOk (k + 1) ps

/-! ## Lemmas on the loader loop -/

section LoaderLemmas

variable {P T : Type} (parseFloat : String → Option P) (parseTime : String → Option T)

theorem parseRecord_of_three (a b c : String) (tl : List String) :
    parseRecord parseFloat parseTime (a :: b :: c :: tl) =
      match parseFloat b, parseTime c with
      | some p, some t => some ⟨a, p, t⟩
      | _, _ => none := by
  simp [parseRecord]

theorem insertLoop_fault (execOk : Nat → Bool) (records : List (List String))
    (s : LoopState P T) :
    (insertLoop parseFloat parseTime true execOk records s).fault =
      if records.any (fun r => decide (r.length < 3)) then some Fault.indexOutOfRange
      else s.fault := by
  induction records generalizing s with
  | nil => simp [insertLoop]
  | cons record rest ih =>
    rcases record with _ | ⟨a, _ | ⟨b, _ | ⟨c, tl⟩⟩⟩
    · simp [insertLoop]
    · simp [insertLoop]
    · simp [insertLoop]
    · have h3 : ¬ (tl.length + 1 + 1 + 1 < 3) := by omega
      simp only [insertLoop, List.getElem?_cons_zero, List.getElem?_cons_succ]
      cases hp : parseFloat b with
      | none => simp [ih, h3]
      | some pv =>
        cases ht : parseTime c with
        | none => simp [ih, h3]
        | some tv =>
          by_cases he : execOk s.written.length = true
          · simp [he, ih, h3]
          · simp [he, ih, h3]

theorem insertLoop_long (execOk : Nat → Bool) (records : List (List String))
    (h : ∀ r ∈ records, 3 ≤ r.length) (s : LoopState P T) :
    (insertLoop parseFloat parseTime true execOk records s).written =
        s.written ++ records.filterMap (parseRecord parseFloat parseTime) ∧
      (insertLoop parseFloat parseTime true execOk records s).buffered =
        s.buffered ++ keepAccepted execOk s.written.length
          (records.filterMap (parseRecord parseFloat parseTime)) ∧
      (insertLoop parseFloat parseTime true execOk records s).fault = s.fault := by
  induction records generalizing s with
  | nil => simp [insertLoop, keepAccepted]
  | cons record rest ih =>
    have hrest : ∀ r ∈ rest, 3 ≤ r.length := fun r hr => h r (List.mem_cons_of_mem _ hr)
    have hrec : 3 ≤ record.length := h record (List.mem_cons_self _ _)
    rcases record with _ | ⟨a, _ | ⟨b, _ | ⟨c, tl⟩⟩⟩
    · simp at hrec
    · simp at hrec
    · simp at hrec
    · simp only [insertLoop, List.getElem?_cons_zero, List.getElem?_cons_succ,
        List.filterMap_cons, parseRecord_of_three]
      cases hp : parseFloat b with
      | none => simpa using ih hrest _
      | some pv =>
        cases ht : parseTime c with
        | none => simpa using ih hrest _
        | some tv =>
          by_cases he : execOk s.written.length = true
          · have := ih hrest
              { s with
                written := s.written ++ [⟨a, pv, tv⟩]
                buffered := s.buffered ++ [⟨a, pv, tv⟩] }
            simpa [he, keepAccepted] using this
          · have := ih hrest
              { s with
                written := s.written ++ [⟨a, pv, tv⟩]
                logs := s.logs ++ [LogLine.execError] }
            simpa [he, keepAccepted] using this

theorem insertLoop_written_sub (stmtOk : Bool) (execOk : Nat → Bool)
    (records : List (List String)) (s : LoopState P T) (promo : Promotion P T)
    (h : promo ∈ (insertLoop parseFloat parseTime stmtOk execOk records s).written) :
    promo ∈ s.written ∨
      ∃ record ∈ records, parseRecord parseFloat parseTime record = some promo := by
  induction records generalizing s with
  | nil => left; simpa [insertLoop] using h
  | cons record rest ih =>
    rcases record with _ | ⟨a, _ | ⟨b, _ | ⟨c, tl⟩⟩⟩
    · left; simpa [insertLoop] using h
    · left; simpa [insertLoop] using h
    · left; simpa [insertLoop] using h
    · simp only [insertLoop, List.getElem?_cons_zero, List.getElem?_cons_succ] at h
      cases hp : parseFloat b with
      | none =>
        rw [hp] at h
        rcases ih _ h with h1 | ⟨r, hr, hr2⟩
        · exact Or.inl h1
        · exact Or.inr ⟨r, List.mem_cons_of_mem _ hr, hr2⟩
      | some pv =>
        rw [hp] at h
        cases ht : parseTime c with
        | none =>
          rw [ht] at h
          rcases ih _ h with h1 | ⟨r, hr, hr2⟩
          · exact Or.inl h1
          · exact Or.inr ⟨r, List.mem_cons_of_mem _ hr, hr2⟩
        | some tv =>
          rw [ht] at h
          have hself : parseRecord parseFloat parseTime (a :: b :: c :: tl) = some ⟨a, pv, tv⟩ := by
            simp [parseRecord_of_three, hp, ht]
          cases stmtOk with
          | false => left; simpa using h
          | true =>
            by_cases he : execOk s.written.length = true
            · simp only [he, if_true] at h
              rcases ih _ h with h1 | ⟨r, hr, hr2⟩
              · simp only [List.mem_append, List.mem_singleton] at h1
                rcases h1 with h1 | h1
                · exact Or.inl h1
                · exact Or.inr ⟨_, List.mem_cons_self _ _, h1 ▸ hself⟩
              · exact Or.inr ⟨r, List.mem_cons_of_mem _ hr, hr2⟩
            · simp only [he] at h
              rcases ih _ h with h1 | ⟨r, hr, hr2⟩
              · simp only [List.mem_append, List.mem_singleton] at h1
                rcases h1 with h1 | h1
                · exact Or.inl h1
                · exact Or.inr ⟨_, List.mem_cons_self _ _, h1 ▸ hself⟩
              · exact Or.inr ⟨r, List.mem_cons_of_mem _ hr, hr2⟩

theorem keepAccepted_all {α : Type} (execOk : Nat → Bool) (h : ∀ k, execOk k = true)
    (k : Nat) (ps : List α) : keepAccepted execOk k ps = ps := by
  induction ps generalizing k with
  | nil => rfl
  | cons p ps ih => simp [keepAccepted, h, ih]

theorem parseRecord_eq_some (record : List String) (promo : Promotion P T) :
    parseRecord parseFloat parseTime record = some promo ↔
      ∃ price expirationDate, record[0]? = some promo.ID ∧ record[1]? = some price ∧
        record[2]? = some expirationDate ∧ parseFloat price = some promo.Price ∧
        parseTime expirationDate = some promo.ExpirationDate := by
  rcases record with _ | ⟨a, _ | ⟨b, _ | ⟨c, tl⟩⟩⟩
  · simp [parseRecord]
  · simp [parseRecord]
  · simp [parseRecord]
  · rw [parseRecord_of_three]
    rcases promo with ⟨i, pr, ex⟩
    cases hp : parseFloat b <;> cases ht : parseTime c <;> simp [hp, ht]

theorem parseRecord_none_of_price (record : List String) (price : String)
    (h1 : record[1]? = some price) (h2 : parseFloat price = none) :
    parseRecord parseFloat parseTime record = none := by
  rcases record with _ | ⟨a, _ | ⟨b, _ | ⟨c, tl⟩⟩⟩
  · simp [parseRecord]
  · simp [parseRecord]
  · simp [parseRecord]
  · simp only [List.getElem?_cons_succ, List.getElem?_cons_zero, Option.some.injEq] at h1
    subst h1
    simp [parseRecord_of_three, h2]

theorem parseRecord_none_of_expiration (record : List String) (expirationDate : String)
    (h1 : record[2]? = some expirationDate) (h2 : parseTime expirationDate = none) :
    parseRecord parseFloat parseTime record = none := by
  rcases record with _ | ⟨a, _ | ⟨b, _ | ⟨c, tl⟩⟩⟩
  · simp [parseRecord]
  · simp [parseRecord]
  · simp [parseRecord]
  · simp only [List.getElem?_cons_succ, List.getElem?_cons_zero, Option.some.injEq] at h1
    subst h1
    rw [parseRecord_of_three, h2]
    cases parseFloat b <;> rfl

theorem insertPromotions_long (st : StoreOutcomes) (records : List (List String))
    (hb : st.beginOk = true) (hp : st.prepareOk = true)
    (h : ∀ r ∈ records, 3 ≤ r.length) :
    (insertPromotions parseFloat parseTime st records).written =
        records.filterMap (parseRecord parseFloat parseTime) ∧
      (insertPromotions parseFloat parseTime st records).stored =
        (if (st.flushOk && st.commitOk) = true then
          keepAccepted st.execOk 0 (records.filterMap (parseRecord parseFloat parseTime))
        else []) ∧
      (insertPromotions parseFloat parseTime st records).outcome =
        (if st.closeOk = true then Outcome.returned else Outcome.exited) ∧
      (insertPromotions parseFloat parseTime st records).done =
        (if st.closeOk = true then 1 else 0) := by
  obtain ⟨h1, h2, h3⟩ := insertLoop_long parseFloat parseTime st.execOk records h
    { logs := [], written := [], buffered := [], fault := none }
  simp only [List.nil_append, List.length_nil] at h1 h2 h3
  simp only [insertPromotions, hb, hp, if_true, h3]
  by_cases hc : st.closeOk = true
  · simp [hc, h1, h2]
  · simp [hc, h1, h2]

theorem insertPromotions_index_fault (st : StoreOutcomes) (records : List (List String))
    (hb : st.beginOk = true) (hp : st.prepareOk = true) :
    (insertPromotions parseFloat parseTime st records).outcome =
        Outcome.panicked Fault.indexOutOfRange ↔ ∃ r ∈ records, r.length < 3 := by
  have hf := insertLoop_fault parseFloat parseTime st.execOk records
    { logs := [], written := [], buffered := [], fault := none }
  simp only [insertPromotions, hb, hp, if_true]
  by_cases hs : ∃ r ∈ records, r.length < 3
  · have hany : (records.any fun r => decide (r.length < 3)) = true := by
      simpa using hs
    rw [hany] at hf
    simp only [if_true] at hf
    rw [hf]
    simp [hs]
  · have hany : ¬ (records.any fun r => decide (r.length < 3)) = true := by
      simpa using hs
    simp only [hany, if_false] at hf
    rw [hf]
    by_cases hc : st.closeOk = true <;> simp [hc, hs]

end LoaderLemmas

/-! ## The chunk loader: claims -/

/-- C3: in a chunk of rows with at least three fields, loaded with an open
transaction and statement, a row whose price field does not parse adds nothing
to the write set nor to the stored rows (both are what they are for the chunk
without that row), every other row whose price and expiration parse is handed
to the bulk insert (and is stored when no store operation fails), and the
loader does not panic. -/
theorem price_rejection_skips_only_its_row {P T : Type} (parseFloat : String → Option P)
    (parseTime : String → Option T) (st : StoreOutcomes)
    (pre post : List (List String)) (r : List String) (price : String)
    (hb : st.beginOk = true) (hp : st.prepareOk = true)
    (hlen : ∀ x ∈ pre ++ r :: post, 3 ≤ x.length)
    (hprice : r[1]? = some price) (hbad : parseFloat price = none) :
    (insertPromotions parseFloat parseTime st (pre ++ r :: post)).written =
        (insertPromotions parseFloat parseTime st (pre ++ post)).written ∧
      (insertPromotions parseFloat parseTime st (pre ++ r :: post)).stored =
        (insertPromotions parseFloat parseTime st (pre ++ post)).stored ∧
      (∀ x ∈ pre ++ post, ∀ (id p e : String) (pv : P) (tv : T),
        x[0]? = some id → x[1]? = some p → x[2]? = some e →
        parseFloat p = some pv → parseTime e = some tv →
        (⟨id, pv, tv⟩ : Promotion P T) ∈
            (insertPromotions parseFloat parseTime st (pre ++ r :: post)).written ∧
          ((∀ k, st.execOk k = true) → st.flushOk = true → st.commitOk = true →
            (⟨id, pv, tv⟩ : Promotion P T) ∈
              (insertPromotions parseFloat parseTime st (pre ++ r :: post)).stored)) ∧
      (∀ f, (insertPromotions parseFloat parseTime st (pre ++ r :: post)).outcome ≠
        Outcome.panicked f) := by
  have hlen' : ∀ x ∈ pre ++ post, 3 ≤ x.length := by
    intro x hx
    apply hlen x
    rcases List.mem_append.1 hx with h | h
    · exact List.mem_append.2 (Or.inl h)
    · exact List.mem_append.2 (Or.inr (List.mem_cons_of_mem _ h))
  have hr : parseRecord parseFloat parseTime r = none :=
    parseRecord_none_of_price parseFloat parseTime r price hprice hbad
  have hF : (pre ++ r :: post).filterMap (parseRecord parseFloat parseTime) =
      (pre ++ post).filterMap (parseRecord parseFloat parseTime) := by
    simp [List.filterMap_append, List.filterMap_cons, hr]
  obtain ⟨w1, s1, o1, _⟩ := insertPromotions_long parseFloat parseTime st (pre ++ r :: post) hb hp hlen
  obtain ⟨w2, s2, _, _⟩ := insertPromotions_long parseFloat parseTime st (pre ++ post) hb hp hlen'
  refine ⟨by rw [w1, w2, hF], by rw [s1, s2, hF], ?_, ?_⟩
  · intro x hx id p e pv tv h0 h1 h2 h3 h4
    have hx' : (⟨id, pv, tv⟩ : Promotion P T) ∈
        (pre ++ post).filterMap (parseRecord parseFloat parseTime) :=
      List.mem_filterMap.2
        ⟨x, hx, (parseRecord_eq_some parseFloat parseTime x ⟨id, pv, tv⟩).2 ⟨p, e, h0, h1, h2, h3, h4⟩⟩
    refine ⟨by rw [w1, hF]; exact hx', ?_⟩
    intro he hfl hco
    rw [s1, hF, keepAccepted_all st.execOk he]
    simpa [hfl, hco] using hx'
  · intro f
    rw [o1]
    by_cases hc : st.closeOk = true <;> simp [hc]

/-- Witness of C3 on the chunk `(p1, "9.99", ..), (p2, "abc", ..)`: `p2` is
dropped and `p1` is written. -/
theorem price_rejection_skips_only_its_row_witness :
    parseDecimal "abc" = none ∧
      ((insertPromotions parseDecimal parseTimestamp StoreOutcomes.allOk [rowP1, rowP2]).written.map
        fun p => p.ID) = ["p1"] ∧
      (insertPromotions parseDecimal parseTimestamp StoreOutcomes.allOk [rowP1, rowP2]).written =
        (insertPromotions parseDecimal parseTimestamp StoreOutcomes.allOk [rowP1]).written :=
  ⟨by decide, by decide,
    (price_rejection_skips_only_its_row parseDecimal parseTimestamp StoreOutcomes.allOk
      [rowP1] [] rowP2 "abc" rfl rfl (by decide) (by decide) (by decide)).1⟩

/-- C4: in a chunk of rows with at least three fields, loaded with an open
transaction and statement, a row whose expiration field does not parse in the
layout adds nothing to the write set nor to the stored rows, whatever its price
field is; the other rows are written as they are without it. -/
theorem expiration_rejection_skips_only_its_row {P T : Type} (parseFloat : String → Option P)
    (parseTime : String → Option T) (st : StoreOutcomes)
    (pre post : List (List String)) (r : List String) (expirationDate : String)
    (hb : st.beginOk = true) (hp : st.prepareOk = true)
    (hlen : ∀ x ∈ pre ++ r :: post, 3 ≤ x.length)
    (hexp : r[2]? = some expirationDate) (hbad : parseTime expirationDate = none) :
    (insertPromotions parseFloat parseTime st (pre ++ r :: post)).written =
        (insertPromotions parseFloat parseTime st (pre ++ post)).written ∧
      (insertPromotions parseFloat parseTime st (pre ++ r :: post)).stored =
        (insertPromotions parseFloat parseTime st (pre ++ post)).stored ∧
      (∀ x ∈ pre ++ post, ∀ (id p e : String) (pv : P) (tv : T),
        x[0]? = some id → x[1]? = some p → x[2]? = some e →
        parseFloat p = some pv → parseTime e = some tv →
        (⟨id, pv, tv⟩ : Promotion P T) ∈
          (insertPromotions parseFloat parseTime st (pre ++ r :: post)).written) ∧
      (∀ f, (insertPromotions parseFloat parseTime st (pre ++ r :: post)).outcome ≠
        Outcome.panicked f) := by
  have hlen' : ∀ x ∈ pre ++ post, 3 ≤ x.length := by
    intro x hx
    apply hlen x
    rcases List.mem_append.1 hx with h | h
    · exact List.mem_append.2 (Or.inl h)
    · exact List.mem_append.2 (Or.inr (List.mem_cons_of_mem _ h))
  have hr : parseRecord parseFloat parseTime r = none :=
    parseRecord_none_of_expiration parseFloat parseTime r expirationDate hexp hbad
  have hF : (pre ++ r :: post).filterMap (parseRecord parseFloat parseTime) =
      (pre ++ post).filterMap (parseRecord parseFloat parseTime) := by
    simp [List.filterMap_append, List.filterMap_cons, hr]
  obtain ⟨w1, s1, o1, _⟩ := insertPromotions_long parseFloat parseTime st (pre ++ r :: post) hb hp hlen
  obtain ⟨w2, s2, _, _⟩ := insertPromotions_long parseFloat parseTime st (pre ++ post) hb hp hlen'
  refine ⟨by rw [w1, w2, hF], by rw [s1, s2, hF], ?_, ?_⟩
  · intro x hx id p e pv tv h0 h1 h2 h3 h4
    rw [w1, hF]
    exact List.mem_filterMap.2
      ⟨x, hx, (parseRecord_eq_some parseFloat parseTime x ⟨id, pv, tv⟩).2 ⟨p, e, h0, h1, h2, h3, h4⟩⟩
  · intro f
    rw [o1]
    by_cases hc : st.closeOk = true <;> simp [hc]

/-- Witness of C4 on the chunk `(p1, "9.99", ..), (p3, "4.50", "not-a-date")`:
`p3` is dropped although its price parses. -/
theorem expiration_rejection_skips_only_its_row_witness :
    (parseDecimal "4.50").isSome = true ∧ parseTimestamp "not-a-date" = none ∧
      ((insertPromotions parseDecimal parseTimestamp StoreOutcomes.allOk [rowP1, rowP3]).written.map
        fun p => p.ID) = ["p1"] ∧
      (insertPromotions parseDecimal parseTimestamp StoreOutcomes.allOk [rowP1, rowP3]).written =
        (insertPromotions parseDecimal parseTimestamp StoreOutcomes.allOk [rowP1]).written :=
  ⟨by decide, by decide, by decide,
    (expiration_rejection_skips_only_its_row parseDecimal parseTimestamp StoreOutcomes.allOk
      [rowP1] [] rowP3 "not-a-date" rfl rfl (by decide) (by decide) (by decide)).1⟩

/-- C10: with an open transaction and statement, the loader panics with an
index out of range exactly when some row of the chunk has fewer than three
fields, whatever the parsers say of any row; it then stores nothing and does
not call `wg.Done`; a chunk whose rows all have three fields or more never
panics. -/
theorem index_fault_iff_short_row {P T : Type} (parseFloat : String → Option P)
    (parseTime : String → Option T) (st : StoreOutcomes) (records : List (List String))
    (hb : st.beginOk = true) (hp : st.prepareOk = true) :
    ((insertPromotions parseFloat parseTime st records).outcome =
        Outcome.panicked Fault.indexOutOfRange ↔ ∃ r ∈ records, r.length < 3) ∧
      ((∃ r ∈ records, r.length < 3) →
        (insertPromotions parseFloat parseTime st records).stored = [] ∧
        (insertPromotions parseFloat parseTime st records).done = 0) ∧
      ((∀ r ∈ records, 3 ≤ r.length) →
        ∀ f, (insertPromotions parseFloat parseTime st records).outcome ≠ Outcome.panicked f) := by
  refine ⟨insertPromotions_index_fault parseFloat parseTime st records hb hp, ?_, ?_⟩
  · intro hs
    have ho := (insertPromotions_index_fault parseFloat parseTime st records hb hp).2 hs
    have hf := insertLoop_fault parseFloat parseTime st.execOk records
      { logs := [], written := [], buffered := [], fault := none }
    have hany : (records.any fun r => decide (r.length < 3)) = true := by
      simpa using hs
    rw [hany] at hf
    simp only [if_true] at hf
    simp only [insertPromotions, hb, hp, if_true, hf, and_self]
  · intro hl f
    rw [(insertPromotions_long parseFloat parseTime st records hb hp hl).2.2.1]
    by_cases hc : st.closeOk = true <;> simp [hc]

/-- Witness of C10: a chunk with a valid row followed by a two-field row. -/
theorem index_fault_iff_short_row_witness :
    (insertPromotions parseDecimal parseTimestamp StoreOutcomes.allOk
        [rowP1, ["p5", "1.00"]]).outcome = Outcome.panicked Fault.indexOutOfRange :=
  (index_fault_iff_short_row parseDecimal parseTimestamp StoreOutcomes.allOk
      [rowP1, ["p5", "1.00"]] rfl rfl).1.2 ⟨["p5", "1.00"], by decide, by decide⟩

/-- C5, evaluated on the failing inputs: when `db.Begin` fails the loader logs
the error and then panics on the nil transaction; when `txn.Prepare` fails it
logs and then panics as well (on the nil statement, or on an index); in both
cases `wg.Done` is never called and the loader does not return. -/
theorem failed_begin_or_prepare_panics {P T : Type} (parseFloat : String → Option P)
    (parseTime : String → Option T) (st : StoreOutcomes) (records : List (List String)) :
    ((insertPromotions parseFloat parseTime { st with beginOk := false } records).outcome =
        Outcome.panicked Fault.nilDereference ∧
      (insertPromotions parseFloat parseTime { st with beginOk := false } records).logs =
        [LogLine.beginError] ∧
      (insertPromotions parseFloat parseTime { st with beginOk := false } records).done = 0) ∧
    ((∃ f, (insertPromotions parseFloat parseTime
          { st with beginOk := true, prepareOk := false } records).outcome =
        Outcome.panicked f) ∧
      (insertPromotions parseFloat parseTime
          { st with beginOk := true, prepareOk := false } records).done = 0) := by
  refine ⟨⟨by simp [insertPromotions], by simp [insertPromotions], by simp [insertPromotions]⟩, ?_⟩
  simp only [insertPromotions, if_true]
  split <;> simp

/-- C9 fails: the row `(p4, "-5", ..)` is accepted, handed to the bulk insert
and stored with the price `-5`, which is negative. -/
theorem negative_price_accepted :
    (insertPromotions parseDecimal parseTimestamp StoreOutcomes.allOk [rowNegative]).written =
        [⟨"p4", ⟨-5, 0⟩, ⟨2030, 1, 2, 15, 4, 5, 0, "UTC"⟩⟩] ∧
      (insertPromotions parseDecimal parseTimestamp StoreOutcomes.allOk [rowNegative]).stored =
        [⟨"p4", ⟨-5, 0⟩, ⟨2030, 1, 2, 15, 4, 5, 0, "UTC"⟩⟩] ∧
      ((insertPromotions parseDecimal parseTimestamp StoreOutcomes.allOk
        [rowNegative]).written.all fun promo => promo.Price.nonneg) = false := by
  decide

/-- C9 as amended: every promotion handed to the bulk insert carries, as its
price, the value the price parser returned for the price field of a row of the
chunk (and the identifier and the parsed expiration of that row); nothing
constrains its sign. -/
theorem written_price_is_parsed_price {P T : Type} (parseFloat : String → Option P)
    (parseTime : String → Option T) (st : StoreOutcomes) (records : List (List String))
    (promo : Promotion P T)
    (h : promo ∈ (insertPromotions parseFloat parseTime st records).written) :
    ∃ record ∈ records, ∃ price expirationDate, record[0]? = some promo.ID ∧
      record[1]? = some price ∧ record[2]? = some expirationDate ∧
      parseFloat price = some promo.Price ∧
      parseTime expirationDate = some promo.ExpirationDate := by
  have key : ∀ s : LoopState P T, s.written = [] → ∀ ok ex,
      promo ∈ (insertLoop parseFloat parseTime ok ex records s).written →
      ∃ record ∈ records, parseRecord parseFloat parseTime record = some promo := by
    intro s hs ok ex hm
    rcases insertLoop_written_sub parseFloat parseTime ok ex records s promo hm with h1 | h1
    · rw [hs] at h1
      cases h1
    · exact h1
  have hrec : ∃ record ∈ records, parseRecord parseFloat parseTime record = some promo := by
    unfold insertPromotions at h
    by_cases hb : st.beginOk = true
    · simp only [hb, if_true] at h
      split at h
      · exact key _ rfl _ _ h
      · split at h
        · split at h
          · exact key _ rfl _ _ h
          · exact key _ rfl _ _ h
        · exact key _ rfl _ _ h
    · simp [hb] at h
  obtain ⟨record, hr, hp⟩ := hrec
  exact ⟨record, hr, (parseRecord_eq_some parseFloat parseTime record promo).1 hp⟩

/-- Witness of the amended C9 on the row `(p4, "-5", ..)`. -/
theorem written_price_is_parsed_price_witness :
    ∃ record ∈ [rowNegative], ∃ price expirationDate, record[0]? = some "p4" ∧
      record[1]? = some price ∧ record[2]? = some expirationDate ∧
      parseDecimal price = some ⟨-5, 0⟩ ∧
      parseTimestamp expirationDate = some ⟨2030, 1, 2, 15, 4, 5, 0, "UTC"⟩ :=
  written_price_is_parsed_price parseDecimal parseTimestamp StoreOutcomes.allOk [rowNegative]
    ⟨"p4", ⟨-5, 0⟩, ⟨2030, 1, 2, 15, 4, 5, 0, "UTC"⟩⟩ (by decide)

/-! ## The orchestrator: chunking -/

theorem chunkSize_pos : 0 < chunkSize := by decide

theorem readLoop_spec (rows chunk : List (List String)) (h : chunk.length < chunkSize) :
    (readLoop rows chunk).1.flatten ++ (readLoop rows chunk).2 = chunk ++ rows ∧
      (∀ c ∈ (readLoop rows chunk).1, c.length = chunkSize) ∧
      (readLoop rows chunk).2.length < chunkSize ∧
      (readLoop rows chunk).1.length * chunkSize + (readLoop rows chunk).2.length =
        chunk.length + rows.length := by
  induction rows generalizing chunk with
  | nil => simp [readLoop, h]
  | cons record rest ih =>
    by_cases hfull : (chunk ++ [record]).length = chunkSize
    · obtain ⟨h1, h2, h3, h4⟩ := ih [] chunkSize_pos
      simp only [readLoop, hfull, if_true]
      refine ⟨?_, ?_, h3, ?_⟩
      · simp only [List.flatten_cons, List.append_assoc, h1]
        simp
      · intro c hc
        rcases List.mem_cons.1 hc with rfl | hc
        · exact hfull
        · exact h2 c hc
      · simp only [List.length_cons, List.length_append, List.length_nil] at hfull h4 ⊢
        rw [Nat.add_mul]
        omega
    · have hlt : (chunk ++ [record]).length < chunkSize := by
        simp only [List.length_append, List.length_cons, List.length_nil] at hfull ⊢
        omega
      obtain ⟨h1, h2, h3, h4⟩ := ih (chunk ++ [record]) hlt
      simp only [readLoop, hfull, if_false]
      refine ⟨?_, h2, h3, ?_⟩
      · rw [h1]
        simp
      · rw [h4]
        simp only [List.length_append, List.length_cons, List.length_nil]
        omega

theorem dispatchedChunks_flatten (rows : List (List String)) :
    (dispatchedChunks rows).flatten = rows := by
  obtain ⟨h1, _, _, _⟩ := readLoop_spec rows [] chunkSize_pos
  unfold dispatchedChunks
  split
  · simpa using h1
  · rename_i hz
    have : (readLoop rows []).2 = [] := by
      cases hr : (readLoop rows []).2 with
      | nil => rfl
      | cons a l => simp [hr] at hz
    simpa [this] using h1

theorem dispatchedChunks_length_le (rows : List (List String)) :
    ∀ c ∈ dispatchedChunks rows, 1 ≤ c.length ∧ c.length ≤ chunkSize := by
  obtain ⟨_, h2, h3, _⟩ := readLoop_spec rows [] chunkSize_pos
  intro c hc
  unfold dispatchedChunks at hc
  split at hc
  · rename_i hpos
    rcases List.mem_append.1 hc with hc | hc
    · rw [h2 c hc]
      exact ⟨chunkSize_pos, le_refl _⟩
    · rw [List.mem_singleton.1 hc]
      exact ⟨hpos, le_of_lt h3⟩
  · rw [h2 c hc]
    exact ⟨chunkSize_pos, le_refl _⟩

/-- C2: the chunks dispatched over a file of `n` rows, concatenated in dispatch
order, are the rows of the file in file order; every chunk but the last has
`chunkSize = 1000` rows, the last has between 1 and 1000, no chunk is empty,
nothing is dispatched for the empty file, and the number of chunks is
`ceil (n / 1000)`. -/
theorem dispatched_chunks_partition (rows : List (List String)) :
    (dispatchedChunks rows).flatten = rows ∧
      (∀ c ∈ (dispatchedChunks rows).dropLast, c.length = chunkSize) ∧
      (∀ c, (dispatchedChunks rows).getLast? = some c → 1 ≤ c.length ∧ c.length ≤ chunkSize) ∧
      (∀ c ∈ dispatchedChunks rows, c ≠ []) ∧
      (rows = [] → dispatchedChunks rows = []) ∧
      (dispatchedChunks rows).length = (rows.length + 999) / 1000 ∧
      chunkSize = 1000 := by
  obtain ⟨_, h2, h3, h4⟩ := readLoop_spec rows [] chunkSize_pos
  refine ⟨dispatchedChunks_flatten rows, ?_, ?_, ?_, ?_, ?_, rfl⟩
  · intro c hc
    unfold dispatchedChunks at hc
    split at hc
    · rw [List.dropLast_concat] at hc
      exact h2 c hc
    · exact h2 c (List.mem_of_mem_dropLast hc)
  · intro c hc
    exact dispatchedChunks_length_le rows c (List.mem_of_getLast?_eq_some hc)
  · intro c hc hnil
    have := (dispatchedChunks_length_le rows c hc).1
    rw [hnil] at this
    simp at this
  · intro hnil
    subst hnil
    decide
  · have hk : chunkSize = 1000 := rfl
    rw [hk] at h3 h4
    simp only [List.length_nil, Nat.zero_add] at h4
    unfold dispatchedChunks
    split
    · rename_i hpos
      simp only [List.length_append, List.length_cons, List.length_nil]
      omega
    · rename_i hz
      omega

/-! ## The orchestrator: the refresh state machine -/

section Orchestrator

variable {P T : Type} (parseFloat : String → Option P) (parseTime : String → Option T)

theorem iteration_events (e : IterEnv) (table : List (Promotion P T)) :
    (iteration parseFloat parseTime e table).1 = [Event.deleteAll false] ∨
      ∃ tail, (iteration parseFloat parseTime e table).1 = Event.deleteAll true :: tail ∧
        ∀ ev ∈ tail, ∀ ok, ev ≠ Event.deleteAll ok := by
  have hmem : ∀ (cs : List (List (List String))) (l : List Event),
      (∀ ev ∈ l, ∀ ok, ev ≠ Event.deleteAll ok) →
      ∀ ev ∈ Event.openFile true :: (cs.map Event.dispatch ++ l), ∀ ok,
        ev ≠ Event.deleteAll ok := by
    intro cs l hl ev hev ok
    simp only [List.mem_cons, List.mem_append, List.mem_map] at hev
    rcases hev with rfl | ⟨c, _, rfl⟩ | h
    · simp
    · simp
    · exact hl ev h ok
  unfold iteration
  by_cases hd : e.deleteOk = true
  · right
    simp only [hd, if_true]
    by_cases ho : e.openOk = true
    · simp only [ho, if_true]
      by_cases hr : e.readOk = true
      · simp only [hr, if_true]
        split
        · exact ⟨_, by simp, hmem (dispatchedChunks e.rows) [Event.waitReturned, Event.sleep]
            (by simp)⟩
        · refine ⟨Event.openFile true :: ((dispatchedChunks e.rows).map Event.dispatch ++ []),
            by simp, hmem _ [] (by simp)⟩
        · exact ⟨_, by simp, hmem (dispatchedChunks e.rows) [Event.processEnded] (by simp)⟩
      · simp only [hr]
        exact ⟨_, by simp, hmem (readLoop e.rows []).1 [Event.processEnded] (by simp)⟩
    · simp only [ho]
      refine ⟨[Event.openFile false, Event.processEnded], by simp, ?_⟩
      intro ev hev ok
      simp only [List.mem_cons, List.mem_singleton, List.not_mem_nil, or_false] at hev
      rcases hev with rfl | rfl <;> simp
  · left
    simp [hd]

theorem cycleTrace_iteration_append (e : IterEnv) (table : List (Promotion P T))
    (t : List Event) (ht : CycleTrace t) :
    CycleTrace ((iteration parseFloat parseTime e table).1 ++ t) := by
  rcases iteration_events parseFloat parseTime e table with h | ⟨tail, h, hno⟩
  · rw [h]
    exact CycleTrace.restart t ht
  · rw [h]
    exact CycleTrace.cycle tail t hno ht

theorem cycleTrace_processCSVFile (envs : List IterEnv) (table : List (Promotion P T)) :
    CycleTrace (processCSVFile parseFloat parseTime envs table) := by
  induction envs generalizing table with
  | nil => exact CycleTrace.done
  | cons e rest ih =>
    unfold processCSVFile
    split
    · exact cycleTrace_iteration_append parseFloat parseTime e table _ (ih _)
    · have := cycleTrace_iteration_append parseFloat parseTime e table [] CycleTrace.done
      simpa using this

end Orchestrator

theorem cycleTrace_head (t : List Event) (h : CycleTrace t) :
    t = [] ∨ ∃ ok rest, t = Event.deleteAll ok :: rest := by
  cases h with
  | done => exact Or.inl rfl
  | restart t _ => exact Or.inr ⟨false, t, rfl⟩
  | cycle tail t _ _ => exact Or.inr ⟨true, tail ++ t, rfl⟩

theorem cycleTrace_after_failed_delete (t : List Event) (h : CycleTrace t) :
    ∀ pre post, t = pre ++ Event.deleteAll false :: post →
      post = [] ∨ ∃ ok rest, post = Event.deleteAll ok :: rest := by
  induction h with
  | done => intro pre post h; simp at h
  | restart t ht ih =>
    intro pre post h
    rcases pre with _ | ⟨x, pre⟩
    · simp only [List.nil_append, List.cons.injEq, true_and] at h
      rw [← h]
      exact cycleTrace_head t ht
    · simp only [List.cons_append, List.cons.injEq] at h
      exact ih pre post h.2
  | cycle tail t hno ht ih =>
    intro pre post h
    rcases pre with _ | ⟨x, pre⟩
    · simp at h
    · simp only [List.cons_append, List.cons.injEq] at h
      rcases List.append_eq_append_iff.1 h.2 with ⟨a, h1, h2⟩ | ⟨c, h1, h2⟩
      · exact ih a post h2
      · rcases c with _ | ⟨y, c⟩
        · simp only [List.nil_append] at h2
          exact ih [] post (by simpa using h2.symm)
        · simp only [List.cons_append, List.cons.injEq] at h2
          have hy : y ∈ tail := by rw [h1]; simp
          exact absurd h2.1.symm (hno y hy false)

theorem cycleTrace_before_dispatch (t : List Event) (h : CycleTrace t) :
    ∀ pre chunk post, t = pre ++ Event.dispatch chunk :: post →
      ∃ a b, pre = a ++ Event.deleteAll true :: b ∧ ∀ ev ∈ b, ∀ ok, ev ≠ Event.deleteAll ok := by
  induction h with
  | done => intro pre chunk post h; simp at h
  | restart t ht ih =>
    intro pre chunk post h
    rcases pre with _ | ⟨x, pre⟩
    · simp at h
    · simp only [List.cons_append, List.cons.injEq] at h
      obtain ⟨a, b, hab, hb⟩ := ih pre chunk post h.2
      exact ⟨x :: a, b, by simp [hab], hb⟩
  | cycle tail t hno ht ih =>
    intro pre chunk post h
    rcases pre with _ | ⟨x, pre⟩
    · simp at h
    · simp only [List.cons_append, List.cons.injEq] at h
      obtain ⟨hx, h⟩ := h
      rcases List.append_eq_append_iff.1 h with ⟨a, h1, h2⟩ | ⟨c, h1, h2⟩
      · obtain ⟨a', b, hab, hb⟩ := ih a chunk post h2
        exact ⟨x :: tail ++ a', b, by simp [h1, hab], hb⟩
      · rcases c with _ | ⟨y, c⟩
        · simp only [List.nil_append] at h2
          obtain ⟨a', b, hab, hb⟩ := ih [] chunk post (by simpa using h2.symm)
          simp at hab
        · refine ⟨[], pre, by simp [← hx], ?_⟩
          intro ev hev ok
          exact hno ev (by rw [h1]; simp [hev]) ok

/-- C6: in every run of the refresh loop, a failed delete-all is followed at
once by the next delete-all attempt (or by nothing, when the run stops there):
no file is opened, no chunk dispatched and no sleep taken in between; and every
dispatch of a chunk comes after a successful delete-all with no other delete
attempt between the two. -/
theorem failed_delete_restarts_at_cleaning {P T : Type} (parseFloat : String → Option P)
    (parseTime : String → Option T) (envs : List IterEnv) (table : List (Promotion P T)) :
    (∀ pre post, processCSVFile parseFloat parseTime envs table =
        pre ++ Event.deleteAll false :: post →
      post = [] ∨ ∃ ok rest, post = Event.deleteAll ok :: rest) ∧
    (∀ pre chunk post, processCSVFile parseFloat parseTime envs table =
        pre ++ Event.dispatch chunk :: post →
      ∃ a b, pre = a ++ Event.deleteAll true :: b ∧
        ∀ ev ∈ b, ∀ ok, ev ≠ Event.deleteAll ok) :=
  ⟨cycleTrace_after_failed_delete _ (cycleTrace_processCSVFile parseFloat parseTime envs table),
    cycleTrace_before_dispatch _ (cycleTrace_processCSVFile parseFloat parseTime envs table)⟩

/-! ## The orchestrator: loaders and the join barrier -/

theorem insertAt_perm {α : Type} (x : α) (n : Nat) (l : List α) :
    (insertAt x n l).Perm (x :: l) := by
  induction l generalizing n with
  | nil => cases n <;> exact List.Perm.refl _
  | cons y l ih =>
    cases n with
    | zero => exact List.Perm.refl _
    | succ n => exact (List.Perm.cons y (ih n)).trans (List.Perm.swap x y l)

theorem completionOrder_perm {α : Type} (sched : List Nat) (l : List α) :
    (completionOrder sched l).Perm l := by
  induction l generalizing sched with
  | nil => cases sched <;> exact List.Perm.refl _
  | cons x xs ih =>
    cases sched with
    | nil => exact List.Perm.cons x (ih [])
    | cons p ps => exact (insertAt_perm x p _).trans (List.Perm.cons x (ih ps))

theorem insertAt_length_append {α : Type} (x : α) (a b : List α) :
    insertAt x a.length (a ++ b) = a ++ x :: b := by
  induction a with
  | nil => cases b <;> rfl
  | cons y a ih => simp [insertAt, ih]

/-- Every order of completion is produced by some list of scheduler choices. -/
theorem completionOrder_complete {α : Type} (l order : List α) (h : order.Perm l) :
    ∃ sched, completionOrder sched l = order := by
  induction l generalizing order with
  | nil =>
    have : order = [] := List.Perm.eq_nil h
    exact ⟨[], by rw [this]; rfl⟩
  | cons x xs ih =>
    have hx : x ∈ order := h.mem_iff.2 (List.mem_cons_self _ _)
    obtain ⟨a, b, rfl⟩ := List.append_of_mem hx
    have hab : (a ++ b).Perm xs := (List.perm_middle.symm.trans h).cons_inv
    obtain ⟨ps, hps⟩ := ih (a ++ b) hab
    exact ⟨a.length :: ps, by simp only [completionOrder, hps, insertAt_length_append]⟩

theorem loadersOf_records (store : Nat → StoreOutcomes) (chunks : List (List (List String)))
    (k : Nat) : (loadersOf store chunks k).map (fun l => l.records) = chunks := by
  induction chunks generalizing k with
  | nil => rfl
  | cons c cs ih => simp [loadersOf, ih]

theorem loadersOf_store (store : Nat → StoreOutcomes) (chunks : List (List (List String)))
    (k : Nat) : ∀ l ∈ loadersOf store chunks k, ∃ j, l.store = store j := by
  induction chunks generalizing k with
  | nil => intro l hl; simp [loadersOf] at hl
  | cons c cs ih =>
    intro l hl
    simp only [loadersOf, List.mem_cons] at hl
    rcases hl with rfl | hl
    · exact ⟨k, rfl⟩
    · exact ih (k + 1) l hl

theorem spawnAll_spec {P T : Type} (store : Nat → StoreOutcomes)
    (chunks : List (List (List String))) (k : Nat) (w : World P T) :
    (spawnAll store chunks k w).table = w.table ∧
      (spawnAll store chunks k w).wg = w.wg + chunks.length ∧
      (spawnAll store chunks k w).running = w.running ++ loadersOf store chunks k := by
  induction chunks generalizing k w with
  | nil => simp [spawnAll, loadersOf]
  | cons c cs ih =>
    obtain ⟨h1, h2, h3⟩ := ih (k + 1) (spawn w ⟨c, store k⟩)
    simp only [spawnAll, loadersOf, h1, h2, h3, List.length_cons]
    refine ⟨rfl, ?_, ?_⟩
    · show w.wg + 1 + cs.length = w.wg + (cs.length + 1)
      omega
    · show w.running ++ [⟨c, store k⟩] ++ loadersOf store cs (k + 1) = _
      simp

section Barrier

variable {P T : Type} (parseFloat : String → Option P) (parseTime : String → Option T)

theorem parseRecord_isSome (record : List String) :
    (parseRecord parseFloat parseTime record).isSome = validRow parseFloat parseTime record := by
  rcases record with _ | ⟨a, _ | ⟨b, _ | ⟨c, tl⟩⟩⟩
  · rfl
  · rfl
  · rfl
  · rw [parseRecord_of_three]
    simp only [validRow, List.getElem?_cons_succ, List.getElem?_cons_zero]
    cases parseFloat b <;> cases parseTime c <;> rfl

theorem length_filterMap_parseRecord (records : List (List String)) :
    (records.filterMap (parseRecord parseFloat parseTime)).length =
      records.countP (validRow parseFloat parseTime) := by
  induction records with
  | nil => rfl
  | cons r rs ih =>
    have h := parseRecord_isSome parseFloat parseTime r
    cases hp : parseRecord parseFloat parseTime r with
    | none =>
      rw [hp] at h
      simp [List.filterMap_cons, hp, List.countP_cons, ← h, ih]
    | some v =>
      rw [hp] at h
      simp [List.filterMap_cons, hp, List.countP_cons, ← h, ih]

theorem insertPromotions_allOk_long (records : List (List String))
    (h : ∀ r ∈ records, 3 ≤ r.length) :
    (insertPromotions parseFloat parseTime StoreOutcomes.allOk records).stored =
        records.filterMap (parseRecord parseFloat parseTime) ∧
      (insertPromotions parseFloat parseTime StoreOutcomes.allOk records).outcome =
        Outcome.returned ∧
      (insertPromotions parseFloat parseTime StoreOutcomes.allOk records).done = 1 := by
  obtain ⟨_, h2, h3, h4⟩ :=
    insertPromotions_long parseFloat parseTime StoreOutcomes.allOk records rfl rfl h
  refine ⟨?_, by simpa [StoreOutcomes.allOk] using h3, by simpa [StoreOutcomes.allOk] using h4⟩
  rw [h2, keepAccepted_all StoreOutcomes.allOk.execOk (fun _ => rfl)]
  simp [StoreOutcomes.allOk]

theorem insertPromotions_allOk_returned (records : List (List String))
    (h : (insertPromotions parseFloat parseTime StoreOutcomes.allOk records).outcome =
      Outcome.returned) : ∀ r ∈ records, 3 ≤ r.length := by
  intro r hr
  by_contra hlt
  have hs : ∃ r ∈ records, r.length < 3 := ⟨r, hr, by omega⟩
  have := (insertPromotions_index_fault parseFloat parseTime StoreOutcomes.allOk records
    rfl rfl).2 hs
  rw [this] at h
  cases h

theorem finishLoaders_good (ls : List Loader)
    (hgood : ∀ l ∈ ls, l.store = StoreOutcomes.allOk ∧ ∀ r ∈ l.records, 3 ≤ r.length)
    (s : List (Promotion P T) × Nat) :
    finishLoaders parseFloat parseTime ls s =
      some (s.1 ++ (ls.map fun l => l.records.filterMap (parseRecord parseFloat parseTime)).flatten,
        s.2 - ls.length) := by
  induction ls generalizing s with
  | nil => simp [finishLoaders]
  | cons l ls ih =>
    obtain ⟨hst, hlen⟩ := hgood l (List.mem_cons_self _ _)
    obtain ⟨h1, h2, h3⟩ := insertPromotions_allOk_long parseFloat parseTime l.records hlen
    simp only [finishLoaders, hst, h1, h2, h3]
    rw [ih (fun l' hl' => hgood l' (List.mem_cons_of_mem _ hl'))]
    simp only [List.map_cons, List.flatten_cons, List.append_assoc, List.length_cons,
      Option.some.injEq, Prod.mk.injEq, true_and]
    omega

theorem finishLoaders_some (ls : List Loader) (hstore : ∀ l ∈ ls, l.store = StoreOutcomes.allOk)
    (s s' : List (Promotion P T) × Nat)
    (h : finishLoaders parseFloat parseTime ls s = some s') :
    ∀ l ∈ ls, ∀ r ∈ l.records, 3 ≤ r.length := by
  induction ls generalizing s with
  | nil => intro l hl; cases hl
  | cons l ls ih =>
    have hst := hstore l (List.mem_cons_self _ _)
    simp only [finishLoaders, hst] at h
    split at h
    · rename_i hret
      intro l' hl'
      rcases List.mem_cons.1 hl' with rfl | hl'
      · exact insertPromotions_allOk_returned parseFloat parseTime _ hret
      · exact ih (fun x hx => hstore x (List.mem_cons_of_mem _ hx)) _ h l' hl'
    · cases h

theorem wgWait_resumed (store : Nat → StoreOutcomes) (hstore : ∀ k, store k = StoreOutcomes.allOk)
    (chunks : List (List (List String))) (sched : List Nat) (table : List (Promotion P T))
    (w : World P T)
    (h : wgWait parseFloat parseTime sched
      (spawnAll store chunks 0 { table := table, running := [], wg := 0 }) =
        WaitResult.resumed w) :
    w.table.Perm
        (table ++ (chunks.map fun c => c.filterMap (parseRecord parseFloat parseTime)).flatten) ∧
      w.wg = 0 ∧ ∀ c ∈ chunks, ∀ r ∈ c, 3 ≤ r.length := by
  obtain ⟨h1, h2, h3⟩ := spawnAll_spec store chunks 0
    ({ table := table, running := [], wg := 0 } : World P T)
  simp only [Nat.zero_add, List.nil_append] at h1 h2 h3
  unfold wgWait at h
  rw [h1, h2, h3] at h
  by_cases hz : chunks.length = 0
  · simp only [hz, if_true, WaitResult.resumed.injEq] at h
    have hnil : chunks = [] := List.length_eq_zero.1 hz
    subst hnil
    rw [← h, h1, h2]
    simp
  · simp only [hz, if_false] at h
    have hperm := completionOrder_perm sched (loadersOf store chunks 0)
    have hst : ∀ l ∈ completionOrder sched (loadersOf store chunks 0),
        l.store = StoreOutcomes.allOk := by
      intro l hl
      obtain ⟨j, hj⟩ := loadersOf_store store chunks 0 l (hperm.mem_iff.1 hl)
      rw [hj, hstore j]
    split at h
    · cases h
    · rename_i s hs
      have hlen := finishLoaders_some parseFloat parseTime _ hst _ _ hs
      rw [finishLoaders_good parseFloat parseTime _ (fun l hl => ⟨hst l hl, hlen l hl⟩)] at hs
      simp only [Option.some.injEq] at hs
      split at h
      · simp only [WaitResult.resumed.injEq] at h
        rw [← h, ← hs]
        refine ⟨?_, rfl, ?_⟩
        · apply List.Perm.append_left
          have hm := (hperm.map fun l : Loader =>
            l.records.filterMap (parseRecord parseFloat parseTime)).flatten
          have hr := loadersOf_records store chunks 0
          have heq : (loadersOf store chunks 0).map
              (fun l => l.records.filterMap (parseRecord parseFloat parseTime)) =
              chunks.map fun c => c.filterMap (parseRecord parseFloat parseTime) := by
            conv_rhs => rw [← hr]
            simp [List.map_map, Function.comp_def]
          rw [heq] at hm
          exact hm
        · intro c hc r hr
          have hr' := loadersOf_records store chunks 0
          have : c ∈ (loadersOf store chunks 0).map (fun l => l.records) := by rw [hr']; exact hc
          obtain ⟨l, hl, rfl⟩ := List.mem_map.1 this
          exact hlen l (hperm.mem_iff.2 hl) r hr
      · cases h

theorem wgWait_total (store : Nat → StoreOutcomes) (hstore : ∀ k, store k = StoreOutcomes.allOk)
    (chunks : List (List (List String))) (sched : List Nat) (table : List (Promotion P T))
    (hlen : ∀ c ∈ chunks, ∀ r ∈ c, 3 ≤ r.length) :
    ∃ w, wgWait parseFloat parseTime sched
      (spawnAll store chunks 0 { table := table, running := [], wg := 0 }) =
        WaitResult.resumed w := by
  obtain ⟨h1, h2, h3⟩ := spawnAll_spec store chunks 0
    ({ table := table, running := [], wg := 0 } : World P T)
  simp only [Nat.zero_add, List.nil_append] at h1 h2 h3
  unfold wgWait
  rw [h1, h2, h3]
  by_cases hz : chunks.length = 0
  · exact ⟨spawnAll store chunks 0 { table := table, running := [], wg := 0 },
      by simp only [hz, if_true]⟩
  · simp only [hz, if_false]
    have hperm := completionOrder_perm sched (loadersOf store chunks 0)
    have hgood : ∀ l ∈ completionOrder sched (loadersOf store chunks 0),
        l.store = StoreOutcomes.allOk ∧ ∀ r ∈ l.records, 3 ≤ r.length := by
      intro l hl
      have hl' := hperm.mem_iff.1 hl
      obtain ⟨j, hj⟩ := loadersOf_store store chunks 0 l hl'
      refine ⟨by rw [hj, hstore j], ?_⟩
      have : l.records ∈ (loadersOf store chunks 0).map (fun l => l.records) :=
        List.mem_map.2 ⟨l, hl', rfl⟩
      rw [loadersOf_records] at this
      exact hlen _ this
    rw [finishLoaders_good parseFloat parseTime _ hgood]
    have hl : (completionOrder sched (loadersOf store chunks 0)).length = chunks.length := by
      rw [hperm.length_eq, ← List.length_map (loadersOf store chunks 0) (fun l => l.records),
        loadersOf_records]
    simp only [hl, Nat.sub_self, if_true]
    exact ⟨_, rfl⟩

end Barrier

/-! ## The orchestrator: claims on a whole cycle -/

theorem parseRecord_id {P T : Type} (parseFloat : String → Option P)
    (parseTime : String → Option T) (record : List String) (id : String) :
    (∃ promo, parseRecord parseFloat parseTime record = some promo ∧ promo.ID = id) ↔
      validRow parseFloat parseTime record = true ∧ record[0]? = some id := by
  rcases record with _ | ⟨a, _ | ⟨b, _ | ⟨c, tl⟩⟩⟩
  · simp [parseRecord, validRow]
  · simp [parseRecord, validRow]
  · simp [parseRecord, validRow]
  · rw [parseRecord_of_three]
    simp only [validRow, List.getElem?_cons_succ, List.getElem?_cons_zero]
    cases parseFloat b <;> cases parseTime c <;> simp

/-- C1: take one iteration of the refresh loop in which the delete-all
succeeds, the file opens and is read to its end, and no store operation of any
loader fails.  If the iteration completes, then whatever the table held before
and in whatever order the loaders commit, the identifiers in the table are
exactly the first fields of the rows of the file whose price and expiration
fields parse.  And the iteration does complete when every row has at least
three fields. -/
theorem completed_cycle_identifiers {P T : Type} (parseFloat : String → Option P)
    (parseTime : String → Option T) (e : IterEnv) (prior : List (Promotion P T))
    (hd : e.deleteOk = true) (ho : e.openOk = true) (hr : e.readOk = true)
    (hs : ∀ k, e.store k = StoreOutcomes.allOk) :
    (∀ table, (iteration parseFloat parseTime e prior).2 = Status.continued table →
      ∀ id, id ∈ table.map (fun p => p.ID) ↔
        ∃ r ∈ e.rows, validRow parseFloat parseTime r = true ∧ r[0]? = some id) ∧
    ((∀ r ∈ e.rows, 3 ≤ r.length) →
      ∃ table, (iteration parseFloat parseTime e prior).2 = Status.continued table) := by
  constructor
  · intro table hstat id
    unfold iteration at hstat
    simp only [hd, ho, hr, if_true] at hstat
    split at hstat
    · rename_i w hw
      simp only [Status.continued.injEq] at hstat
      obtain ⟨hperm, _, _⟩ := wgWait_resumed parseFloat parseTime e.store hs _ e.sched [] w hw
      rw [← hstat]
      simp only [List.nil_append] at hperm
      constructor
      · intro hid
        obtain ⟨promo, hpm, hpid⟩ := List.mem_map.1 hid
        obtain ⟨l, hl, hpl⟩ := List.mem_flatten.1 (hperm.mem_iff.1 hpm)
        obtain ⟨c, hc, rfl⟩ := List.mem_map.1 hl
        obtain ⟨r, hrc, hrp⟩ := List.mem_filterMap.1 hpl
        have hrows : r ∈ e.rows := by
          rw [← dispatchedChunks_flatten e.rows]
          exact List.mem_flatten.2 ⟨c, hc, hrc⟩
        exact ⟨r, hrows, (parseRecord_id parseFloat parseTime r id).1 ⟨promo, hrp, hpid⟩⟩
      · rintro ⟨r, hrows, hv⟩
        obtain ⟨promo, hrp, hpid⟩ := (parseRecord_id parseFloat parseTime r id).2 hv
        rw [← dispatchedChunks_flatten e.rows] at hrows
        obtain ⟨c, hc, hrc⟩ := List.mem_flatten.1 hrows
        refine List.mem_map.2 ⟨promo, hperm.mem_iff.2 ?_, hpid⟩
        exact List.mem_flatten.2
          ⟨_, List.mem_map.2 ⟨c, hc, rfl⟩, List.mem_filterMap.2 ⟨r, hrc, hrp⟩⟩
    · cases hstat
    · cases hstat
  · intro hlen
    have hlen' : ∀ c ∈ dispatchedChunks e.rows, ∀ r ∈ c, 3 ≤ r.length := by
      intro c hc r hrc
      apply hlen
      rw [← dispatchedChunks_flatten e.rows]
      exact List.mem_flatten.2 ⟨c, hc, hrc⟩
    obtain ⟨w, hw⟩ := wgWait_total parseFloat parseTime e.store hs (dispatchedChunks e.rows)
      e.sched ([] : List (Promotion P T)) hlen'
    unfold iteration
    simp only [hd, ho, hr, if_true, hw]
    exact ⟨_, rfl⟩

/-- Witness of C1: the scenario file completes its cycle, from a table that
held another row. -/
theorem completed_cycle_identifiers_witness :
    ∃ table, (iteration parseDecimal parseTimestamp scenarioEnv
      [⟨"old", ⟨1, 0⟩, ⟨2020, 1, 1, 0, 0, 0, 0, "UTC"⟩⟩]).2 = Status.continued table :=
  (completed_cycle_identifiers parseDecimal parseTimestamp scenarioEnv
    [⟨"old", ⟨1, 0⟩, ⟨2020, 1, 1, 0, 0, 0, 0, "UTC"⟩⟩] rfl rfl rfl (fun _ => rfl)).2
      (by decide)

/-- C8: when no store operation fails, and whatever the order in which the
loaders of the dispatched chunks run and commit, once the wait on the join
barrier has returned the table has grown by the sum, over the chunks, of the
number of valid rows of the chunk; a second wait without any new dispatch
returns at once and changes nothing.  The wait does return when every row has
at least three fields. -/
theorem committed_count_is_sum_of_valid_rows {P T : Type} (parseFloat : String → Option P)
    (parseTime : String → Option T) (store : Nat → StoreOutcomes)
    (chunks : List (List (List String))) (sched : List Nat) (table : List (Promotion P T))
    (hstore : ∀ k, store k = StoreOutcomes.allOk) :
    (∀ w, wgWait parseFloat parseTime sched
        (spawnAll store chunks 0 { table := table, running := [], wg := 0 }) =
          WaitResult.resumed w →
      w.table.length =
          table.length + (chunks.map fun c => c.countP (validRow parseFloat parseTime)).sum ∧
        ∀ sched2, wgWait parseFloat parseTime sched2 w = WaitResult.resumed w) ∧
    ((∀ c ∈ chunks, ∀ r ∈ c, 3 ≤ r.length) →
      ∃ w, wgWait parseFloat parseTime sched
        (spawnAll store chunks 0 { table := table, running := [], wg := 0 }) =
          WaitResult.resumed w) := by
  refine ⟨?_, wgWait_total parseFloat parseTime store hstore chunks sched table⟩
  intro w hw
  obtain ⟨hperm, hwg, _⟩ := wgWait_resumed parseFloat parseTime store hstore chunks sched table w hw
  constructor
  · rw [hperm.length_eq, List.length_append, List.length_flatten, List.map_map]
    congr 2
    apply List.map_congr_left
    intro c _
    exact length_filterMap_parseRecord parseFloat parseTime c
  · intro sched2
    unfold wgWait
    simp [hwg]

/-- Witness of C8: two chunks, the loaders finishing in the reverse order of
their dispatch. -/
theorem committed_count_is_sum_of_valid_rows_witness :
    ∃ w, wgWait parseDecimal parseTimestamp [1]
        (spawnAll (fun _ => StoreOutcomes.allOk) [[rowP1, rowP2], [rowP3, rowNegative]] 0
          { table := [], running := [], wg := 0 }) = WaitResult.resumed w :=
  (committed_count_is_sum_of_valid_rows parseDecimal parseTimestamp
    (fun _ => StoreOutcomes.allOk) [[rowP1, rowP2], [rowP3, rowNegative]] [1] []
    (fun _ => rfl)).2 (by decide)

/-! ## The lookup handler: claims -/

/-- C7: the handler answers 404 when the query yields no rows; it answers 500
exactly when the query fails with another error or the found row cannot be
serialized; and on a hit that serializes it answers 200 with the encoding of
the object whose members are `id`, `price` and `expiration_date` of the stored
row, as `application/json`. -/
theorem lookup_responses {P T : Type} (queryRow : String → ScanResult P T)
    (encode : List (String × JsonValue P T) → Option String) (path : String) :
    (queryRow (requestedID path) = ScanResult.errNoRows →
      (getPromotionByID queryRow encode path).status = 404) ∧
    ((getPromotionByID queryRow encode path).status = 500 ↔
      queryRow (requestedID path) = ScanResult.errOther ∨
        ∃ promo, queryRow (requestedID path) = ScanResult.row promo ∧
          encode (promotionMembers promo) = none) ∧
    (∀ promo jsonData, queryRow (requestedID path) = ScanResult.row promo →
      encode [("id", JsonValue.str promo.ID), ("price", JsonValue.num promo.Price),
        ("expiration_date", JsonValue.time promo.ExpirationDate)] = some jsonData →
      getPromotionByID queryRow encode path =
        { status := 200, contentType := "application/json", body := jsonData }) := by
  unfold getPromotionByID
  cases hq : queryRow (requestedID path) with
  | errNoRows => simp
  | errOther => simp
  | row promotion =>
    cases he : encode (promotionMembers promotion) with
    | none =>
      simp only [promotionMembers] at he
      simp only [he, promotionMembers]
      refine ⟨by simp, by simp [he], ?_⟩
      rintro promo jsonData ⟨rfl⟩ h
      rw [he] at h
      cases h
    | some js =>
      simp only [promotionMembers] at he
      simp only [he, promotionMembers]
      refine ⟨by simp, by simp [he], ?_⟩
      rintro promo jsonData ⟨rfl⟩ h
      rw [he] at h
      cases h
      rfl

end VRStore
